import Mathlib

/-!
Verification of the three-pass employee shift scheduler
(`final_scheduler.py`, class `EmployeeScheduler`).

The scheduler state is embedded shallowly: the nested schedule dictionary
becomes a total function `Day → Shift → List String` (every slot exists from
initialisation, as in `__init__`), the `defaultdict(int)` day counter becomes
a total function `String → Nat`, and the two Python dicts keyed by employee
name become association lists looked up with first-match semantics (the code
only inserts a key it has checked to be absent, so the two coincide on all
reachable states).

Python's `for`-loops with `break` become structural recursions over the
remaining list; the `while` loop of `_ensure_minimum_coverage` becomes a
fuelled recursion (each iteration either lengthens the slot or stops, and the
loop condition bounds the slot length by `MIN_EMPLOYEES_PER_SHIFT`, so fuel
`MIN_EMPLOYEES_PER_SHIFT` is exact).

A failed dictionary lookup (`KeyError` in Python) is modelled by `Option`:
`assign_shifts` returns `none` exactly when a lookup of an unregistered
employee would raise.

Pass 3 (`_resolve_conflicts`) iterates `missing_days`, a Python `set` of
strings, whose iteration order is not fixed by the source (string hashing is
seed-dependent).  The embedding therefore takes an explicit enumeration
function `setOrder` applied to the missing days listed in calendar order; an
actual CPython run corresponds to some `setOrder` that permutes its input.
-/

inductive Day where
  | monday | tuesday | wednesday | thursday | friday | saturday | sunday
deriving DecidableEq, Repr

inductive Shift where
  | morning | afternoon | evening
deriving DecidableEq, Repr

/-- `EmployeeScheduler.DAYS` -/
def DAYS : List Day :=
  [.monday, .tuesday, .wednesday, .thursday, .friday, .saturday, .sunday]

/-- `EmployeeScheduler.SHIFTS` -/
def SHIFTS : List Shift := [.morning, .afternoon, .evening]

/-- `EmployeeScheduler.MAX_DAYS_PER_WEEK` -/
def MAX_DAYS_PER_WEEK : Nat := 5

/-- `EmployeeScheduler.MIN_EMPLOYEES_PER_SHIFT` -/
def MIN_EMPLOYEES_PER_SHIFT : Nat := 2

/-- A preference dictionary `{day: [shift, ...]}` as an insertion-ordered
association list. -/
abbrev PrefPlan := List (Day × List Shift)

/-- The mutable state of one `EmployeeScheduler` instance. -/
structure EmployeeScheduler where
  employees : List String
  preferences : List (String × PrefPlan)
  schedule : Day → Shift → List String
  employee_days_worked : String → Nat

/-- `EmployeeScheduler.__init__`: empty employee list, empty preference dict,
every slot an empty list, every counter 0. -/
def initialScheduler : EmployeeScheduler :=
  { employees := []
    preferences := []
    schedule := fun _ _ => []
    employee_days_worked := fun _ => 0 }

/-- `EmployeeScheduler.add_employee`. -/
def add_employee (s : EmployeeScheduler) (name : String)
    (shift_preferences : PrefPlan) : EmployeeScheduler :=
  if name ∈ s.employees then s
  else { s with
          employees := s.employees ++ [name]
          preferences := s.preferences ++ [(name, shift_preferences)] }

/-- Dictionary lookup `prefs[name]` (first match). -/
def lookupPref : List (String × PrefPlan) → String → Option PrefPlan
  | [], _ => none
  | (n, p) :: rest, name => if n = name then some p else lookupPref rest name

/-- Dictionary lookup `plan[day]` / the test `day in plan` (first match). -/
def lookupDay : PrefPlan → Day → Option (List Shift)
  | [], _ => none
  | (d, l) :: rest, day => if d = day then some l else lookupDay rest day

/-- `any(employee in self.schedule[day][shift] for shift in self.SHIFTS)`. -/
def alreadyScheduledOn (s : EmployeeScheduler) (day : Day) (e : String) : Bool :=
  SHIFTS.any (fun shift => decide (e ∈ s.schedule day shift))

/-- The one atomic mutation of the algorithm: every append
`self.schedule[day][shift].append(employee)` in the source is immediately
followed by `self.employee_days_worked[employee] += 1`; this helper performs
both. -/
def assignTo (s : EmployeeScheduler) (day : Day) (shift : Shift)
    (e : String) : EmployeeScheduler :=
  { s with
    schedule := fun d sh =>
      if d = day then
        (if sh = shift then s.schedule d sh ++ [e] else s.schedule d sh)
      else s.schedule d sh
    employee_days_worked := fun x =>
      if x = e then s.employee_days_worked x + 1 else s.employee_days_worked x }

/-- The day loop of Pass 1 of `assign_shifts` for one employee.  `some` is
the normal exit (including the two `break`s); `none` is the `KeyError` from
`self.preferences[employee]`. -/
def pass1_days (prefs : List (String × PrefPlan)) (employee : String) :
    List Day → EmployeeScheduler → Option EmployeeScheduler
  | [], s => some s
  | day :: rest, s =>
    if s.employee_days_worked employee ≥ MAX_DAYS_PER_WEEK then some s
    else
      match lookupPref prefs employee with
      | none => none
      | some plan =>
        match lookupDay plan day with
        | none => pass1_days prefs employee rest s
        | some preferred_shifts =>
          if alreadyScheduledOn s day employee then
            pass1_days prefs employee rest s
          else
            match preferred_shifts with
            | [] => some s
            | preferred_shift :: _ =>
              pass1_days prefs employee rest (assignTo s day preferred_shift employee)

/-- The employee loop of Pass 1. -/
def pass1_go (prefs : List (String × PrefPlan)) :
    List String → EmployeeScheduler → Option EmployeeScheduler
  | [], s => some s
  | employee :: rest, s =>
    match pass1_days prefs employee DAYS s with
    | none => none
    | some s1 => pass1_go prefs rest s1

/-- Pass 1 of `assign_shifts` (lines 73–107). -/
def pass1 (s : EmployeeScheduler) : Option EmployeeScheduler :=
  pass1_go s.preferences s.employees s

/-- The employee scan of `_ensure_minimum_coverage`: the first employee of
the list that is below the day cap, not scheduled anywhere on `day`, and not
already in this exact shift. -/
def findEligible (s : EmployeeScheduler) (day : Day) (shift : Shift) :
    List String → Option String
  | [] => none
  | employee :: rest =>
    if s.employee_days_worked employee ≥ MAX_DAYS_PER_WEEK then
      findEligible s day shift rest
    else if alreadyScheduledOn s day employee then
      findEligible s day shift rest
    else if decide (employee ∈ s.schedule day shift) then
      findEligible s day shift rest
    else some employee

/-- The `while current_count < MIN_EMPLOYEES_PER_SHIFT` loop of
`_ensure_minimum_coverage` for one slot, fuelled: each continuing iteration
appends one employee to the slot, so fuel `MIN_EMPLOYEES_PER_SHIFT` makes the
recursion reproduce the loop exactly. -/
def fillSlot (day : Day) (shift : Shift) :
    Nat → EmployeeScheduler → EmployeeScheduler
  | 0, s => s
  | n + 1, s =>
    if (s.schedule day shift).length < MIN_EMPLOYEES_PER_SHIFT then
      match findEligible s day shift s.employees with
      | some employee => fillSlot day shift n (assignTo s day shift employee)
      | none => s
    else s

/-- The shift loop of `_ensure_minimum_coverage` for one day. -/
def pass2_shifts (day : Day) : List Shift → EmployeeScheduler → EmployeeScheduler
  | [], s => s
  | shift :: rest, s =>
    pass2_shifts day rest (fillSlot day shift MIN_EMPLOYEES_PER_SHIFT s)

/-- The day loop of `_ensure_minimum_coverage`. -/
def pass2_days : List Day → EmployeeScheduler → EmployeeScheduler
  | [], s => s
  | day :: rest, s => pass2_days rest (pass2_shifts day SHIFTS s)

/-- Pass 2 of `assign_shifts`: `_ensure_minimum_coverage` (lines 115–159). -/
def pass2 (s : EmployeeScheduler) : EmployeeScheduler := pass2_days DAYS s

/-- The set `scheduled_days` computed by `_resolve_conflicts` for one
employee, listed in calendar order. -/
def scheduledDaysOf (s : EmployeeScheduler) (e : String) : List Day :=
  DAYS.filter (fun day => alreadyScheduledOn s day e)

/-- The set `missing_days = preferred_days - scheduled_days` of
`_resolve_conflicts`, listed in calendar order. -/
def missingDaysOf (s : EmployeeScheduler) (plan : PrefPlan) (e : String) : List Day :=
  DAYS.filter (fun day =>
    decide (day ∈ plan.map Prod.fst) && ! alreadyScheduledOn s day e)

/-- The inner `for shift in priority_shifts` loop of `_resolve_conflicts`:
the first shift of the list whose slot does not already contain `e`. -/
def tryShifts (s : EmployeeScheduler) (e : String) (day : Day) :
    List Shift → Option Shift
  | [] => none
  | shift :: rest =>
    if decide (e ∈ s.schedule day shift) then tryShifts s e day rest
    else some shift

/-- The `for day in missing_days` loop of `_resolve_conflicts` for one
employee; `scheduled_days` is the local set the Python code mutates with
`scheduled_days.add(day)`. -/
def pass3_days (plan : PrefPlan) (employee : String) :
    List Day → List Day → EmployeeScheduler → EmployeeScheduler
  | [], _, s => s
  | day :: rest, scheduled_days, s =>
    if s.employee_days_worked employee ≥ MAX_DAYS_PER_WEEK then s
    else if decide (day ∈ scheduled_days) then
      pass3_days plan employee rest scheduled_days s
    else
      match tryShifts s employee day ((lookupDay plan day).getD SHIFTS) with
      | none => pass3_days plan employee rest scheduled_days s
      | some shift =>
        pass3_days plan employee rest (scheduled_days ++ [day])
          (assignTo s day shift employee)

/-- The employee loop of `_resolve_conflicts`.  `setOrder` is the iteration
order of the Python set `missing_days` (applied to the missing days listed in
calendar order); `none` is the `KeyError` from `self.preferences[employee]`. -/
def pass3_go (setOrder : List Day → List Day) (prefs : List (String × PrefPlan)) :
    List String → EmployeeScheduler → Option EmployeeScheduler
  | [], s => some s
  | employee :: rest, s =>
    match lookupPref prefs employee with
    | none => none
    | some plan =>
      pass3_go setOrder prefs rest
        (pass3_days plan employee (setOrder (missingDaysOf s plan employee))
          (scheduledDaysOf s employee) s)

/-- Pass 3 of `assign_shifts`: `_resolve_conflicts` (lines 161–207). -/
def pass3_all (setOrder : List Day → List Day) (s : EmployeeScheduler) :
    Option EmployeeScheduler :=
  pass3_go setOrder s.preferences s.employees s

/-- `EmployeeScheduler.assign_shifts`: Pass 1, then `_ensure_minimum_coverage`,
then `_resolve_conflicts`. -/
def assign_shifts (setOrder : List Day → List Day) (s : EmployeeScheduler) :
    Option EmployeeScheduler :=
  match pass1 s with
  | none => none
  | some s1 => pass3_all setOrder (pass2 s1)

/-- State after Pass 1 (meaningful when `pass1 s` succeeds). -/
def afterPass1 (s : EmployeeScheduler) : EmployeeScheduler := (pass1 s).getD s

/-- State after Pass 2. -/
def afterPass2 (s : EmployeeScheduler) : EmployeeScheduler := pass2 (afterPass1 s)

/-- State after Pass 3 (meaningful when the passes succeed). -/
def afterPass3 (setOrder : List Day → List Day) (s : EmployeeScheduler) :
    EmployeeScheduler :=
  (pass3_all setOrder (afterPass2 s)).getD (afterPass2 s)

/-! ### Basic facts about the fixed grid -/

theorem mem_DAYS (d : Day) : d ∈ DAYS := by cases d <;> decide

theorem mem_SHIFTS (sh : Shift) : sh ∈ SHIFTS := by cases sh <;> decide

theorem DAYS_nodup : DAYS.Nodup := by decide

/-! ### Facts about the atomic assignment step -/

theorem assignTo_employees (s : EmployeeScheduler) (day : Day) (shift : Shift)
    (e : String) : (assignTo s day shift e).employees = s.employees := rfl

theorem assignTo_preferences (s : EmployeeScheduler) (day : Day) (shift : Shift)
    (e : String) : (assignTo s day shift e).preferences = s.preferences := rfl

theorem assignTo_schedule_self (s : EmployeeScheduler) (day : Day) (shift : Shift)
    (e : String) :
    (assignTo s day shift e).schedule day shift = s.schedule day shift ++ [e] := by
  simp [assignTo]

theorem assignTo_days_worked (s : EmployeeScheduler) (day : Day) (shift : Shift)
    (e x : String) :
    (assignTo s day shift e).employee_days_worked x =
      if x = e then s.employee_days_worked x + 1 else s.employee_days_worked x := rfl

theorem assignTo_days_worked_self (s : EmployeeScheduler) (day : Day) (shift : Shift)
    (e : String) :
    (assignTo s day shift e).employee_days_worked e = s.employee_days_worked e + 1 := by
  simp [assignTo]

theorem mem_assignTo (s : EmployeeScheduler) (day : Day) (shift : Shift)
    (e : String) (d : Day) (sh : Shift) (x : String) :
    x ∈ (assignTo s day shift e).schedule d sh ↔
      x ∈ s.schedule d sh ∨ (x = e ∧ d = day ∧ sh = shift) := by
  simp only [assignTo]
  by_cases hd : d = day
  · by_cases hsh : sh = shift
    · subst hd; subst hsh; simp [List.mem_append]
    · subst hd; simp [hsh]
  · simp [hd]

theorem assignTo_schedule_ne_day (s : EmployeeScheduler) (day : Day) (shift : Shift)
    (e : String) (d : Day) (sh : Shift) (hd : d ≠ day) :
    (assignTo s day shift e).schedule d sh = s.schedule d sh := by
  simp [assignTo, hd]

/-! ### Facts about the day-collision check -/

theorem alreadyScheduledOn_eq_false_iff (s : EmployeeScheduler) (day : Day)
    (e : String) :
    alreadyScheduledOn s day e = false ↔ ∀ sh : Shift, e ∉ s.schedule day sh := by
  simp only [alreadyScheduledOn, List.any_eq_false, decide_eq_true_eq]
  constructor
  · intro h sh
    exact h sh (mem_SHIFTS sh)
  · intro h sh _
    exact h sh

theorem alreadyScheduledOn_eq_true_iff (s : EmployeeScheduler) (day : Day)
    (e : String) :
    alreadyScheduledOn s day e = true ↔ ∃ sh : Shift, e ∈ s.schedule day sh := by
  simp only [alreadyScheduledOn, List.any_eq_true, decide_eq_true_eq]
  constructor
  · rintro ⟨sh, _, hm⟩
    exact ⟨sh, hm⟩
  · rintro ⟨sh, hm⟩
    exact ⟨sh, mem_SHIFTS sh, hm⟩

theorem bool_eq_false {b : Bool} (h : ¬ b = true) : b = false := by
  cases b
  · rfl
  · exact absurd rfl h

theorem alreadyScheduledOn_assignTo_ne (s : EmployeeScheduler) (day : Day)
    (shift : Shift) (e : String) (d : Day) (x : String) (hx : x ≠ e) :
    alreadyScheduledOn (assignTo s day shift e) d x = alreadyScheduledOn s d x := by
  cases hb : alreadyScheduledOn s d x with
  | true =>
    rw [alreadyScheduledOn_eq_true_iff] at hb ⊢
    obtain ⟨sh, hm⟩ := hb
    exact ⟨sh, (mem_assignTo s day shift e d sh x).mpr (Or.inl hm)⟩
  | false =>
    rw [alreadyScheduledOn_eq_false_iff] at hb ⊢
    intro sh hm
    rcases (mem_assignTo s day shift e d sh x).mp hm with hm' | ⟨hxe, _⟩
    · exact hb sh hm'
    · exact hx hxe

theorem alreadyScheduledOn_assignTo_ne_day (s : EmployeeScheduler) (day : Day)
    (shift : Shift) (e : String) (d : Day) (x : String) (hd : d ≠ day) :
    alreadyScheduledOn (assignTo s day shift e) d x = alreadyScheduledOn s d x := by
  cases hb : alreadyScheduledOn s d x with
  | true =>
    rw [alreadyScheduledOn_eq_true_iff] at hb ⊢
    obtain ⟨sh, hm⟩ := hb
    exact ⟨sh, by rw [assignTo_schedule_ne_day s day shift e d sh hd]; exact hm⟩
  | false =>
    rw [alreadyScheduledOn_eq_false_iff] at hb ⊢
    intro sh
    rw [assignTo_schedule_ne_day s day shift e d sh hd]
    exact hb sh

theorem alreadyScheduledOn_assignTo_self (s : EmployeeScheduler) (day : Day)
    (shift : Shift) (e : String) :
    alreadyScheduledOn (assignTo s day shift e) day e = true := by
  rw [alreadyScheduledOn_eq_true_iff]
  exact ⟨shift, by rw [assignTo_schedule_self]; simp⟩

/-! ### Generic preservation of invariants by the three passes

Every append performed by the algorithm happens at a point where the
employee being placed is strictly below the day cap and is not yet scheduled
anywhere on the target day (in Pass 3 this follows from the `scheduled_days`
bookkeeping).  Any predicate preserved by such guarded assignments is an
invariant of all three passes. -/

def PassInv (P : EmployeeScheduler → Prop) : Prop :=
  ∀ s day shift e, P s → s.employee_days_worked e < MAX_DAYS_PER_WEEK →
    alreadyScheduledOn s day e = false → P (assignTo s day shift e)

theorem pass1_days_inv {P : EmployeeScheduler → Prop} (hP : PassInv P)
    (prefs : List (String × PrefPlan)) (e : String) :
    ∀ (ds : List Day) (s s' : EmployeeScheduler), P s →
      pass1_days prefs e ds s = some s' → P s' := by
  intro ds
  induction ds with
  | nil =>
    intro s s' h0 h
    simp only [pass1_days] at h
    injection h with h
    exact h ▸ h0
  | cons day rest ih =>
    intro s s' h0 h
    simp only [pass1_days] at h
    by_cases hcap : s.employee_days_worked e ≥ MAX_DAYS_PER_WEEK
    · rw [if_pos hcap] at h
      injection h with h
      exact h ▸ h0
    · rw [if_neg hcap] at h
      cases hlp : lookupPref prefs e with
      | none => simp only [hlp] at h; exact Option.noConfusion h
      | some plan =>
        simp only [hlp] at h
        cases hld : lookupDay plan day with
        | none => simp only [hld] at h; exact ih s s' h0 h
        | some preferred_shifts =>
          simp only [hld] at h
          by_cases hns : alreadyScheduledOn s day e = true
          · rw [if_pos hns] at h
            exact ih s s' h0 h
          · rw [if_neg hns] at h
            cases preferred_shifts with
            | nil =>
              injection h with h
              exact h ▸ h0
            | cons shift more =>
              exact ih _ s'
                (hP s day shift e h0 (Nat.not_le.mp hcap) (bool_eq_false hns)) h

theorem pass1_go_inv {P : EmployeeScheduler → Prop} (hP : PassInv P)
    (prefs : List (String × PrefPlan)) :
    ∀ (emps : List String) (s s' : EmployeeScheduler), P s →
      pass1_go prefs emps s = some s' → P s' := by
  intro emps
  induction emps with
  | nil =>
    intro s s' h0 h
    simp only [pass1_go] at h
    injection h with h
    exact h ▸ h0
  | cons e rest ih =>
    intro s s' h0 h
    simp only [pass1_go] at h
    split at h
    · exact absurd h (by simp)
    · rename_i s1 hs1
      exact ih s1 s' (pass1_days_inv hP prefs e DAYS s s1 h0 hs1) h

theorem pass1_inv {P : EmployeeScheduler → Prop} (hP : PassInv P)
    (s s' : EmployeeScheduler) (h0 : P s) (h : pass1 s = some s') : P s' :=
  pass1_go_inv hP s.preferences s.employees s s' h0 h

theorem findEligible_eq_some (s : EmployeeScheduler) (day : Day) (shift : Shift) :
    ∀ (l : List String) (e : String), findEligible s day shift l = some e →
      s.employee_days_worked e < MAX_DAYS_PER_WEEK ∧
      alreadyScheduledOn s day e = false ∧
      e ∉ s.schedule day shift ∧ e ∈ l := by
  intro l
  induction l with
  | nil => intro e h; exact Option.noConfusion h
  | cons a rest ih =>
    intro e h
    simp only [findEligible] at h
    by_cases h1 : s.employee_days_worked a ≥ MAX_DAYS_PER_WEEK
    · rw [if_pos h1] at h
      obtain ⟨c1, c2, c3, c4⟩ := ih e h
      exact ⟨c1, c2, c3, List.mem_cons_of_mem a c4⟩
    · rw [if_neg h1] at h
      by_cases h2 : alreadyScheduledOn s day a = true
      · rw [if_pos h2] at h
        obtain ⟨c1, c2, c3, c4⟩ := ih e h
        exact ⟨c1, c2, c3, List.mem_cons_of_mem a c4⟩
      · rw [if_neg h2] at h
        by_cases h3 : a ∈ s.schedule day shift
        · rw [if_pos (decide_eq_true h3)] at h
          obtain ⟨c1, c2, c3, c4⟩ := ih e h
          exact ⟨c1, c2, c3, List.mem_cons_of_mem a c4⟩
        · rw [if_neg (by simpa using h3)] at h
          injection h with h
          subst h
          exact ⟨Nat.not_le.mp h1, bool_eq_false h2, h3, List.mem_cons_self a rest⟩

theorem fillSlot_inv {P : EmployeeScheduler → Prop} (hP : PassInv P)
    (day : Day) (shift : Shift) :
    ∀ (n : Nat) (s : EmployeeScheduler), P s → P (fillSlot day shift n s) := by
  intro n
  induction n with
  | zero => intro s h0; exact h0
  | succ n ih =>
    intro s h0
    simp only [fillSlot]
    by_cases hlen : (s.schedule day shift).length < MIN_EMPLOYEES_PER_SHIFT
    · rw [if_pos hlen]
      cases hf : findEligible s day shift s.employees with
      | none => exact h0
      | some employee =>
        obtain ⟨c1, c2, _, _⟩ := findEligible_eq_some s day shift s.employees employee hf
        exact ih _ (hP s day shift employee h0 c1 c2)
    · rw [if_neg hlen]
      exact h0

theorem pass2_shifts_inv {P : EmployeeScheduler → Prop} (hP : PassInv P)
    (day : Day) :
    ∀ (shs : List Shift) (s : EmployeeScheduler), P s → P (pass2_shifts day shs s) := by
  intro shs
  induction shs with
  | nil => intro s h0; exact h0
  | cons shift rest ih =>
    intro s h0
    exact ih _ (fillSlot_inv hP day shift MIN_EMPLOYEES_PER_SHIFT s h0)

theorem pass2_days_inv {P : EmployeeScheduler → Prop} (hP : PassInv P) :
    ∀ (ds : List Day) (s : EmployeeScheduler), P s → P (pass2_days ds s) := by
  intro ds
  induction ds with
  | nil => intro s h0; exact h0
  | cons day rest ih =>
    intro s h0
    exact ih _ (pass2_shifts_inv hP day SHIFTS s h0)

theorem pass2_inv {P : EmployeeScheduler → Prop} (hP : PassInv P)
    (s : EmployeeScheduler) (h0 : P s) : P (pass2 s) :=
  pass2_days_inv hP DAYS s h0

theorem pass3_days_inv {P : EmployeeScheduler → Prop} (hP : PassInv P)
    (plan : PrefPlan) (e : String) :
    ∀ (ds sd : List Day) (s : EmployeeScheduler), P s →
      (∀ d, alreadyScheduledOn s d e = true → d ∈ sd) →
      P (pass3_days plan e ds sd s) := by
  intro ds
  induction ds with
  | nil => intro sd s h0 _; exact h0
  | cons day rest ih =>
    intro sd s h0 hsd
    simp only [pass3_days]
    by_cases hcap : s.employee_days_worked e ≥ MAX_DAYS_PER_WEEK
    · rw [if_pos hcap]
      exact h0
    · rw [if_neg hcap]
      by_cases hin : day ∈ sd
      · rw [if_pos (decide_eq_true hin)]
        exact ih sd s h0 hsd
      · rw [if_neg (by simpa using hin)]
        have hns : alreadyScheduledOn s day e = false := by
          cases hb : alreadyScheduledOn s day e
          · rfl
          · exact absurd (hsd day hb) hin
        cases ht : tryShifts s e day ((lookupDay plan day).getD SHIFTS) with
        | none => exact ih sd s h0 hsd
        | some shift =>
          refine ih (sd ++ [day]) _ (hP s day shift e h0 (Nat.not_le.mp hcap) hns) ?_
          intro d hd
          by_cases hdd : d = day
          · subst hdd
            simp
          · rw [alreadyScheduledOn_assignTo_ne_day s day shift e d e hdd] at hd
            exact List.mem_append_left _ (hsd d hd)

theorem pass3_go_inv {P : EmployeeScheduler → Prop} (hP : PassInv P)
    (setOrder : List Day → List Day) (prefs : List (String × PrefPlan)) :
    ∀ (emps : List String) (s s' : EmployeeScheduler), P s →
      pass3_go setOrder prefs emps s = some s' → P s' := by
  intro emps
  induction emps with
  | nil =>
    intro s s' h0 h
    injection h with h
    exact h ▸ h0
  | cons e rest ih =>
    intro s s' h0 h
    simp only [pass3_go] at h
    cases hlp : lookupPref prefs e with
    | none => simp only [hlp] at h; exact Option.noConfusion h
    | some plan =>
      simp only [hlp] at h
      refine ih _ s' (pass3_days_inv hP plan e _ _ s h0 ?_) h
      intro d hd
      rw [scheduledDaysOf, List.mem_filter]
      exact ⟨mem_DAYS d, hd⟩

theorem pass3_all_inv {P : EmployeeScheduler → Prop} (hP : PassInv P)
    (setOrder : List Day → List Day) (s s' : EmployeeScheduler)
    (h0 : P s) (h : pass3_all setOrder s = some s') : P s' :=
  pass3_go_inv hP setOrder s.preferences s.employees s s' h0 h

theorem getD_case {P : EmployeeScheduler → Prop} :
    ∀ (o : Option EmployeeScheduler) (s0 : EmployeeScheduler), P s0 →
      (∀ t, o = some t → P t) → P (o.getD s0)
  | none, _, hs, _ => hs
  | some t, _, _, ho => ho t rfl

theorem afterPass1_inv {P : EmployeeScheduler → Prop} (hP : PassInv P)
    (s : EmployeeScheduler) (h0 : P s) : P (afterPass1 s) :=
  getD_case (pass1 s) s h0 (fun t ht => pass1_inv hP s t h0 ht)

theorem afterPass2_inv {P : EmployeeScheduler → Prop} (hP : PassInv P)
    (s : EmployeeScheduler) (h0 : P s) : P (afterPass2 s) :=
  pass2_inv hP (afterPass1 s) (afterPass1_inv hP s h0)

theorem afterPass3_inv {P : EmployeeScheduler → Prop} (hP : PassInv P)
    (setOrder : List Day → List Day) (s : EmployeeScheduler) (h0 : P s) :
    P (afterPass3 setOrder s) :=
  getD_case (pass3_all setOrder (afterPass2 s)) (afterPass2 s)
    (afterPass2_inv hP s h0)
    (fun t ht => pass3_all_inv hP setOrder (afterPass2 s) t (afterPass2_inv hP s h0) ht)

/-! ### The three state invariants of the spec -/

/-- No double-booking: an employee appears in at most one of the three
shifts of any day. -/
def NoDouble (s : EmployeeScheduler) : Prop :=
  ∀ (x : String) (d : Day) (sh1 sh2 : Shift), sh1 ≠ sh2 →
    x ∈ s.schedule d sh1 → x ∈ s.schedule d sh2 → False

/-- Work-day cap: every counter is at most `MAX_DAYS_PER_WEEK`. -/
def CapOK (s : EmployeeScheduler) : Prop :=
  ∀ x : String, s.employee_days_worked x ≤ MAX_DAYS_PER_WEEK

/-- Counter consistency: every counter equals the number of distinct days on
which the employee appears in some shift of the schedule. -/
def Consistent (s : EmployeeScheduler) : Prop :=
  ∀ x : String, s.employee_days_worked x = (scheduledDaysOf s x).length

theorem passInv_NoDouble : PassInv NoDouble := by
  intro s day shift e h0 _ hns
  intro x d sh1 sh2 hne hm1 hm2
  rw [alreadyScheduledOn_eq_false_iff] at hns
  rcases (mem_assignTo s day shift e d sh1 x).mp hm1 with h1 | ⟨hx1, hd1, hs1⟩
  · rcases (mem_assignTo s day shift e d sh2 x).mp hm2 with h2 | ⟨hx2, hd2, hs2⟩
    · exact h0 x d sh1 sh2 hne h1 h2
    · subst hx2; subst hd2
      exact hns sh1 h1
  · rcases (mem_assignTo s day shift e d sh2 x).mp hm2 with h2 | ⟨hx2, hd2, hs2⟩
    · subst hx1; subst hd1
      exact hns sh2 h2
    · exact hne (hs1.trans hs2.symm)

theorem passInv_CapOK : PassInv CapOK := by
  intro s day shift e h0 hlt _
  intro x
  rw [assignTo_days_worked]
  by_cases hx : x = e
  · rw [if_pos hx]
    subst hx
    exact Nat.succ_le_of_lt hlt
  · rw [if_neg hx]
    exact h0 x

theorem filter_length_succ {α : Type} :
    ∀ (l : List α) (p q : α → Bool) (a : α), l.Nodup → a ∈ l →
      p a = false → q a = true → (∀ b, b ≠ a → p b = q b) →
      (l.filter q).length = (l.filter p).length + 1 := by
  intro l
  induction l with
  | nil => intro p q a _ ha; exact absurd ha (List.not_mem_nil a)
  | cons b rest ih =>
    intro p q a hnd ha hpa hqa hagree
    have hnd' := List.nodup_cons.mp hnd
    rcases List.mem_cons.mp ha with hab | harest
    · subst hab
      have hrest_eq : rest.filter p = rest.filter q :=
        List.filter_congr (fun c hc => hagree c (fun hca => hnd'.1 (hca ▸ hc)))
      rw [List.filter_cons_of_pos hqa, List.filter_cons_of_neg (by rw [hpa]; simp),
        List.length_cons, hrest_eq]
    · have hba : b ≠ a := fun hba => hnd'.1 (hba ▸ harest)
      have hpq : p b = q b := hagree b hba
      cases hpb : p b with
      | false =>
        have hqb : q b = false := by rw [← hpq]; exact hpb
        rw [List.filter_cons_of_neg (by rw [hqb]; simp),
          List.filter_cons_of_neg (by rw [hpb]; simp)]
        exact ih p q a hnd'.2 harest hpa hqa hagree
      | true =>
        have hqb : q b = true := by rw [← hpq]; exact hpb
        rw [List.filter_cons_of_pos hqb, List.filter_cons_of_pos hpb,
          List.length_cons, List.length_cons,
          ih p q a hnd'.2 harest hpa hqa hagree]

theorem passInv_Consistent : PassInv Consistent := by
  intro s day shift e h0 _ hns
  intro x
  rw [assignTo_days_worked]
  by_cases hx : x = e
  · rw [if_pos hx]
    subst hx
    rw [h0 x]
    rw [scheduledDaysOf, scheduledDaysOf]
    exact (filter_length_succ DAYS (fun d => alreadyScheduledOn s d x)
      (fun d => alreadyScheduledOn (assignTo s day shift x) d x) day
      DAYS_nodup (mem_DAYS day) hns (alreadyScheduledOn_assignTo_self s day shift x)
      (fun b hb => (alreadyScheduledOn_assignTo_ne_day s day shift x b x hb).symm)).symm
  · rw [if_neg hx]
    rw [h0 x]
    rw [scheduledDaysOf, scheduledDaysOf]
    congr 1
    exact List.filter_congr
      (fun d _ => (alreadyScheduledOn_assignTo_ne s day shift e d x hx).symm)

/-- A small concrete state used by the witnesses: one registered employee
`"A"` preferring Monday Morning. -/
def exSmall : EmployeeScheduler :=
  add_employee initialScheduler "A" [(.monday, [.morning])]

/-- Claim C1 (invariants): for every employee and every day, after Pass 1,
after Pass 2 and after Pass 3 of `assign_shifts`, the employee appears in the
employee list of at most one of the three shifts of that day — provided the
starting state already satisfies the invariant (in particular any freshly
built state, whose schedule is empty).  Each individual assignment of each
pass preserves the invariant (`passInv_NoDouble`), for every iteration order
of the Pass-3 `missing_days` set. -/
theorem claim_C1_no_double_booking (setOrder : List Day → List Day)
    (s : EmployeeScheduler) (h0 : NoDouble s) :
    NoDouble (afterPass1 s) ∧ NoDouble (afterPass2 s) ∧
      NoDouble (afterPass3 setOrder s) :=
  ⟨afterPass1_inv passInv_NoDouble s h0,
   afterPass2_inv passInv_NoDouble s h0,
   afterPass3_inv passInv_NoDouble setOrder s h0⟩

theorem claim_C1_witness :
    NoDouble (afterPass1 exSmall) ∧ NoDouble (afterPass2 exSmall) ∧
      NoDouble (afterPass3 (fun l => l) exSmall) :=
  claim_C1_no_double_booking (fun l => l) exSmall
    (fun x _ _ _ _ hm _ => absurd hm (List.not_mem_nil x))

/-- Claim C2 (invariants): every employee's `employee_days_worked` counter is
at most `MAX_DAYS_PER_WEEK` (5) at every point during and after
`assign_shifts`, provided it was at the start (in particular for the fresh
all-zero counters): the first conjunct states that each individual guarded
assignment of each pass preserves the bound — every append site first checks
the counter against the cap — and the remaining conjuncts state it after
each of the three passes. -/
theorem claim_C2_work_day_cap (setOrder : List Day → List Day)
    (s : EmployeeScheduler) (h0 : CapOK s) :
    PassInv CapOK ∧
    CapOK (afterPass1 s) ∧ CapOK (afterPass2 s) ∧
      CapOK (afterPass3 setOrder s) :=
  ⟨passInv_CapOK,
   afterPass1_inv passInv_CapOK s h0,
   afterPass2_inv passInv_CapOK s h0,
   afterPass3_inv passInv_CapOK setOrder s h0⟩

theorem claim_C2_witness :
    PassInv CapOK ∧
    CapOK (afterPass1 exSmall) ∧ CapOK (afterPass2 exSmall) ∧
      CapOK (afterPass3 (fun l => l) exSmall) :=
  claim_C2_work_day_cap (fun l => l) exSmall (fun _ => Nat.zero_le _)

/-- Claim C5 (invariants): after each pass of `assign_shifts`,
`employee_days_worked[e]` equals the number of distinct days on which `e`
appears in any shift's employee list, provided the starting state is
consistent (in particular the fresh empty state); each individual assignment
increments the counter exactly when it schedules the employee on a day they
were not yet scheduled on (`passInv_Consistent`). -/
theorem claim_C5_counter_consistent (setOrder : List Day → List Day)
    (s : EmployeeScheduler) (h0 : Consistent s) :
    Consistent (afterPass1 s) ∧ Consistent (afterPass2 s) ∧
      Consistent (afterPass3 setOrder s) :=
  ⟨afterPass1_inv passInv_Consistent s h0,
   afterPass2_inv passInv_Consistent s h0,
   afterPass3_inv passInv_Consistent setOrder s h0⟩

theorem claim_C5_witness :
    Consistent (afterPass1 exSmall) ∧ Consistent (afterPass2 exSmall) ∧
      Consistent (afterPass3 (fun l => l) exSmall) :=
  claim_C5_counter_consistent (fun l => l) exSmall (fun _ => rfl)

/-! ### Append-only growth (claim C7) -/

/-- `s'` extends `s`: every slot's employee list of `s` is a prefix of the
corresponding list of `s'`, and no day counter decreased. -/
def grows (s s' : EmployeeScheduler) : Prop :=
  (∀ (d : Day) (sh : Shift), ∃ t, s'.schedule d sh = s.schedule d sh ++ t) ∧
  (∀ x : String, s.employee_days_worked x ≤ s'.employee_days_worked x)

theorem grows_refl (s : EmployeeScheduler) : grows s s :=
  ⟨fun d sh => ⟨[], (List.append_nil _).symm⟩, fun _ => Nat.le_refl _⟩

theorem grows_trans {s t u : EmployeeScheduler} (h1 : grows s t)
    (h2 : grows t u) : grows s u := by
  refine ⟨fun d sh => ?_, fun x => Nat.le_trans (h1.2 x) (h2.2 x)⟩
  obtain ⟨t1, ht1⟩ := h1.1 d sh
  obtain ⟨t2, ht2⟩ := h2.1 d sh
  exact ⟨t1 ++ t2, by rw [ht2, ht1, List.append_assoc]⟩

theorem grows_assignTo (s : EmployeeScheduler) (day : Day) (shift : Shift)
    (e : String) : grows s (assignTo s day shift e) := by
  constructor
  · intro d sh
    by_cases hd : d = day
    · subst hd
      by_cases hsh : sh = shift
      · subst hsh
        exact ⟨[e], assignTo_schedule_self s d sh e⟩
      · exact ⟨[], by simp [assignTo, hsh]⟩
    · exact ⟨[], by rw [assignTo_schedule_ne_day s day shift e d sh hd, List.append_nil]⟩
  · intro x
    rw [assignTo_days_worked]
    by_cases hx : x = e
    · rw [if_pos hx]
      exact Nat.le_succ _
    · rw [if_neg hx]

theorem passInv_grows (s0 : EmployeeScheduler) :
    PassInv (fun t => grows s0 t) :=
  fun s day shift e h _ _ => grows_trans h (grows_assignTo s day shift e)

/-- Claim C7 (algebraic): the schedule and the counters start empty
(`initialScheduler`) and only grow: after each pass, every slot's previous
employee list is a prefix of the new one and no counter decreased — no
placement is ever removed, replaced or moved, for every iteration order of
the Pass-3 set. -/
theorem claim_C7_append_only (setOrder : List Day → List Day)
    (s : EmployeeScheduler) :
    (∀ (d : Day) (sh : Shift), initialScheduler.schedule d sh = []) ∧
    (∀ x : String, initialScheduler.employee_days_worked x = 0) ∧
    grows s (afterPass1 s) ∧
    grows (afterPass1 s) (afterPass2 s) ∧
    grows (afterPass2 s) (afterPass3 setOrder s) := by
  refine ⟨fun _ _ => rfl, fun _ => rfl, ?_, ?_, ?_⟩
  · exact afterPass1_inv (passInv_grows s) s (grows_refl s)
  · exact pass2_inv (passInv_grows (afterPass1 s)) (afterPass1 s)
      (grows_refl (afterPass1 s))
  · exact getD_case (pass3_all setOrder (afterPass2 s)) (afterPass2 s)
      (grows_refl (afterPass2 s))
      (fun t ht => pass3_all_inv (passInv_grows (afterPass2 s)) setOrder
        (afterPass2 s) t (grows_refl (afterPass2 s)) ht)

/-! ### Pass-1 step behaviour (claims C4 and C8) -/

/-- Claim C4 (functional): in Pass 1, an employee below the day cap, with a
preference entry `shift :: lower_ranked` for the current day, and not yet
scheduled that day, is appended to exactly `shift` — the first entry — with
the counter incremented by one, and the loop then proceeds to the remaining
days from that updated state.  The conclusion holds for every
`lower_ranked`, so the 2nd/3rd choices are never consulted, and it carries
no hypothesis about the slot's current occupancy, so no staffing limit is
checked. -/
theorem claim_C4_pass1_first_choice (prefs : List (String × PrefPlan))
    (e : String) (day : Day) (rest_days : List Day) (s : EmployeeScheduler)
    (plan : PrefPlan) (shift : Shift) (lower_ranked : List Shift)
    (hcap : s.employee_days_worked e < MAX_DAYS_PER_WEEK)
    (hlp : lookupPref prefs e = some plan)
    (hld : lookupDay plan day = some (shift :: lower_ranked))
    (hns : alreadyScheduledOn s day e = false) :
    pass1_days prefs e (day :: rest_days) s =
      pass1_days prefs e rest_days (assignTo s day shift e) ∧
    (assignTo s day shift e).schedule day shift = s.schedule day shift ++ [e] ∧
    (assignTo s day shift e).employee_days_worked e = s.employee_days_worked e + 1 := by
  refine ⟨?_, assignTo_schedule_self s day shift e, assignTo_days_worked_self s day shift e⟩
  simp only [pass1_days]
  rw [if_neg (Nat.not_le.mpr hcap)]
  simp only [hlp, hld]
  rw [if_neg (by rw [hns]; simp)]

def exPlanC4 : PrefPlan := [(Day.monday, [Shift.morning, Shift.afternoon])]

theorem claim_C4_witness :
    pass1_days [("A", exPlanC4)] "A" (Day.monday :: [Day.tuesday]) initialScheduler =
      pass1_days [("A", exPlanC4)] "A" [Day.tuesday]
        (assignTo initialScheduler Day.monday Shift.morning "A") ∧
    (assignTo initialScheduler Day.monday Shift.morning "A").schedule
        Day.monday Shift.morning =
      initialScheduler.schedule Day.monday Shift.morning ++ ["A"] ∧
    (assignTo initialScheduler Day.monday Shift.morning "A").employee_days_worked "A" =
      initialScheduler.employee_days_worked "A" + 1 :=
  claim_C4_pass1_first_choice [("A", exPlanC4)] "A" Day.monday [Day.tuesday]
    initialScheduler exPlanC4 Shift.morning [Shift.afternoon]
    (by decide) rfl rfl rfl

/-- Claim C8 (functional quirk): in Pass 1, a present-but-empty preference
entry for a day, for an employee not already scheduled that day, terminates
the employee's entire day loop: the result is `some s` unchanged, for every
list of remaining days — the remaining days are not processed (a `break`,
not a skip of that one day). -/
theorem claim_C8_empty_pref_breaks (prefs : List (String × PrefPlan))
    (e : String) (day : Day) (rest_days : List Day) (s : EmployeeScheduler)
    (plan : PrefPlan)
    (hlp : lookupPref prefs e = some plan)
    (hld : lookupDay plan day = some [])
    (hns : alreadyScheduledOn s day e = false) :
    pass1_days prefs e (day :: rest_days) s = some s := by
  simp only [pass1_days]
  by_cases hcap : s.employee_days_worked e ≥ MAX_DAYS_PER_WEEK
  · rw [if_pos hcap]
  · rw [if_neg hcap]
    simp only [hlp, hld]
    rw [if_neg (by rw [hns]; simp)]

def exPlanC8 : PrefPlan := [(Day.monday, [])]

theorem claim_C8_witness :
    pass1_days [("A", exPlanC8)] "A"
        (Day.monday :: [Day.tuesday, Day.wednesday]) initialScheduler =
      some initialScheduler :=
  claim_C8_empty_pref_breaks [("A", exPlanC8)] "A" Day.monday
    [Day.tuesday, Day.wednesday] initialScheduler exPlanC8 rfl rfl rfl

/-! ### Pass-2 backfill behaviour (claim C6) -/

/-- The eligibility condition of `_ensure_minimum_coverage`'s employee scan,
as stated by the spec: below the cap, not scheduled anywhere on the day, not
already in this exact shift. -/
def eligibleFor (s : EmployeeScheduler) (day : Day) (shift : Shift)
    (e : String) : Prop :=
  s.employee_days_worked e < MAX_DAYS_PER_WEEK ∧
  alreadyScheduledOn s day e = false ∧
  e ∉ s.schedule day shift

theorem findEligible_first (s : EmployeeScheduler) (day : Day) (shift : Shift) :
    ∀ (l : List String) (e : String), findEligible s day shift l = some e →
      eligibleFor s day shift e ∧
      ∃ l1 l2, l = l1 ++ e :: l2 ∧ ∀ x ∈ l1, ¬ eligibleFor s day shift x := by
  intro l
  induction l with
  | nil => intro e h; exact Option.noConfusion h
  | cons a rest ih =>
    intro e h
    simp only [findEligible] at h
    by_cases h1 : s.employee_days_worked a ≥ MAX_DAYS_PER_WEEK
    · rw [if_pos h1] at h
      obtain ⟨hel, l1, l2, heq, hall⟩ := ih e h
      refine ⟨hel, a :: l1, l2, by rw [heq]; rfl, ?_⟩
      intro x hx
      rcases List.mem_cons.mp hx with hxa | hxl
      · subst hxa
        exact fun hc => absurd hc.1 (Nat.not_lt.mpr h1)
      · exact hall x hxl
    · rw [if_neg h1] at h
      by_cases h2 : alreadyScheduledOn s day a = true
      · rw [if_pos h2] at h
        obtain ⟨hel, l1, l2, heq, hall⟩ := ih e h
        refine ⟨hel, a :: l1, l2, by rw [heq]; rfl, ?_⟩
        intro x hx
        rcases List.mem_cons.mp hx with hxa | hxl
        · subst hxa
          exact fun hc => absurd h2 (by rw [hc.2.1]; simp)
        · exact hall x hxl
      · rw [if_neg h2] at h
        by_cases h3 : a ∈ s.schedule day shift
        · rw [if_pos (decide_eq_true h3)] at h
          obtain ⟨hel, l1, l2, heq, hall⟩ := ih e h
          refine ⟨hel, a :: l1, l2, by rw [heq]; rfl, ?_⟩
          intro x hx
          rcases List.mem_cons.mp hx with hxa | hxl
          · subst hxa
            exact fun hc => absurd h3 hc.2.2
          · exact hall x hxl
        · rw [if_neg (by simpa using h3)] at h
          injection h with h
          subst h
          exact ⟨⟨Nat.not_le.mp h1, bool_eq_false h2, h3⟩, [], rest, rfl,
            fun x hx => absurd hx (List.not_mem_nil x)⟩

theorem findEligible_none (s : EmployeeScheduler) (day : Day) (shift : Shift) :
    ∀ l : List String, (∀ x ∈ l, ¬ eligibleFor s day shift x) →
      findEligible s day shift l = none := by
  intro l
  induction l with
  | nil => intro _; rfl
  | cons a rest ih =>
    intro hall
    simp only [findEligible]
    by_cases h1 : s.employee_days_worked a ≥ MAX_DAYS_PER_WEEK
    · rw [if_pos h1]
      exact ih (fun x hx => hall x (List.mem_cons_of_mem a hx))
    · rw [if_neg h1]
      by_cases h2 : alreadyScheduledOn s day a = true
      · rw [if_pos h2]
        exact ih (fun x hx => hall x (List.mem_cons_of_mem a hx))
      · rw [if_neg h2]
        by_cases h3 : a ∈ s.schedule day shift
        · rw [if_pos (decide_eq_true h3)]
          exact ih (fun x hx => hall x (List.mem_cons_of_mem a hx))
        · exact absurd ⟨Nat.not_le.mp h1, bool_eq_false h2, h3⟩
            (hall a (List.mem_cons_self a rest))

/-- Claim C6 (functional): one iteration of the Pass-2 `while` loop for a
slot below `MIN_EMPLOYEES_PER_SHIFT` appends the first employee in
registration order who is below the 5-day cap, not scheduled anywhere that
day, and not already in the slot, then continues; if no eligible employee
exists the slot is left as it is (below the minimum) with no error; a slot
at or above the minimum is left untouched. -/
theorem claim_C6_pass2_backfill (s : EmployeeScheduler) (day : Day)
    (shift : Shift) (n : Nat) :
    ((s.schedule day shift).length < MIN_EMPLOYEES_PER_SHIFT →
      (∀ e, findEligible s day shift s.employees = some e →
        (eligibleFor s day shift e ∧
         ∃ l1 l2, s.employees = l1 ++ e :: l2 ∧
           ∀ x ∈ l1, ¬ eligibleFor s day shift x) ∧
        fillSlot day shift (n + 1) s = fillSlot day shift n (assignTo s day shift e)) ∧
      ((∀ x ∈ s.employees, ¬ eligibleFor s day shift x) →
        fillSlot day shift (n + 1) s = s)) ∧
    (¬ (s.schedule day shift).length < MIN_EMPLOYEES_PER_SHIFT →
      fillSlot day shift (n + 1) s = s) := by
  constructor
  · intro hlen
    constructor
    · intro e hf
      refine ⟨findEligible_first s day shift s.employees e hf, ?_⟩
      simp only [fillSlot]
      rw [if_pos hlen, hf]
    · intro hnone
      simp only [fillSlot]
      rw [if_pos hlen, findEligible_none s day shift s.employees hnone]
  · intro hlen
    simp only [fillSlot]
    rw [if_neg hlen]

theorem claim_C6_witness :
    fillSlot Day.monday Shift.morning (1 + 1) exSmall =
      fillSlot Day.monday Shift.morning 1
        (assignTo exSmall Day.monday Shift.morning "A") :=
  (((claim_C6_pass2_backfill exSmall Day.monday Shift.morning 1).1
    (by decide)).1 "A" rfl).2

/-! ### Reachable states and absence of `KeyError` (claim C9) -/

/-- States built only by `add_employee` calls from a fresh scheduler. -/
inductive Reachable : EmployeeScheduler → Prop where
  | init : Reachable initialScheduler
  | add (s : EmployeeScheduler) (name : String) (plan : PrefPlan) :
      Reachable s → Reachable (add_employee s name plan)

theorem lookupPref_append_of_isSome (l1 l2 : List (String × PrefPlan))
    (e : String) (h : (lookupPref l1 e).isSome = true) :
    lookupPref (l1 ++ l2) e = lookupPref l1 e := by
  induction l1 with
  | nil => exact absurd h (by simp [lookupPref])
  | cons a rest ih =>
    simp only [lookupPref, List.cons_append] at h ⊢
    by_cases ha : a.1 = e
    · rw [if_pos ha, if_pos ha]
    · rw [if_neg ha, if_neg ha]
      rw [if_neg ha] at h
      exact ih h

theorem lookupPref_append_of_none (l1 l2 : List (String × PrefPlan))
    (e : String) (h : lookupPref l1 e = none) :
    lookupPref (l1 ++ l2) e = lookupPref l2 e := by
  induction l1 with
  | nil => rfl
  | cons a rest ih =>
    simp only [lookupPref, List.cons_append] at h ⊢
    by_cases ha : a.1 = e
    · rw [if_pos ha] at h
      exact Option.noConfusion h
    · rw [if_neg ha] at h
      rw [if_neg ha]
      exact ih h

/-- On reachable states every registered employee has a preference entry. -/
theorem reachable_registered_have_plans (s : EmployeeScheduler)
    (hr : Reachable s) :
    ∀ e ∈ s.employees, (lookupPref s.preferences e).isSome = true := by
  induction hr with
  | init => intro e he; exact absurd he (List.not_mem_nil e)
  | add s name plan _ ih =>
    intro e he
    simp only [add_employee] at he ⊢
    by_cases hn : name ∈ s.employees
    · rw [if_pos hn] at he ⊢
      exact ih e he
    · rw [if_neg hn] at he ⊢
      rcases List.mem_append.mp he with h1 | h2
      · cases hlp : lookupPref s.preferences e with
        | none =>
          have := ih e h1
          rw [hlp] at this
          exact absurd this (by simp)
        | some p =>
          rw [lookupPref_append_of_isSome s.preferences [(name, plan)] e
            (by rw [hlp]; rfl), hlp]
          rfl
      · have he2 : e = name := by simpa using h2
        subst he2
        cases hlp : lookupPref s.preferences e with
        | none =>
          rw [lookupPref_append_of_none s.preferences [(e, plan)] e hlp]
          simp [lookupPref]
        | some p =>
          rw [lookupPref_append_of_isSome s.preferences [(e, plan)] e
            (by rw [hlp]; rfl), hlp]
          rfl

theorem pass1_days_isSome (prefs : List (String × PrefPlan)) (e : String)
    (hp : (lookupPref prefs e).isSome = true) :
    ∀ (ds : List Day) (s : EmployeeScheduler),
      (pass1_days prefs e ds s).isSome = true := by
  intro ds
  induction ds with
  | nil => intro s; rfl
  | cons day rest ih =>
    intro s
    simp only [pass1_days]
    by_cases hcap : s.employee_days_worked e ≥ MAX_DAYS_PER_WEEK
    · rw [if_pos hcap]
      rfl
    · rw [if_neg hcap]
      cases hlp : lookupPref prefs e with
      | none => rw [hlp] at hp; exact absurd hp (by simp)
      | some plan =>
        simp only [hlp]
        cases hld : lookupDay plan day with
        | none => simp only [hld]; exact ih s
        | some preferred_shifts =>
          simp only [hld]
          by_cases hns : alreadyScheduledOn s day e = true
          · rw [if_pos hns]
            exact ih s
          · rw [if_neg hns]
            cases preferred_shifts with
            | nil => rfl
            | cons shift more => exact ih _

theorem pass1_go_isSome (prefs : List (String × PrefPlan)) :
    ∀ (emps : List String),
      (∀ e ∈ emps, (lookupPref prefs e).isSome = true) →
      ∀ s : EmployeeScheduler, (pass1_go prefs emps s).isSome = true := by
  intro emps
  induction emps with
  | nil => intro _ s; rfl
  | cons e rest ih =>
    intro hall s
    have h1 := pass1_days_isSome prefs e (hall e (List.mem_cons_self e rest)) DAYS s
    obtain ⟨s1, hs1⟩ := Option.isSome_iff_exists.mp h1
    simp only [pass1_go, hs1]
    exact ih (fun x hx => hall x (List.mem_cons_of_mem e hx)) s1

theorem pass3_go_isSome (setOrder : List Day → List Day)
    (prefs : List (String × PrefPlan)) :
    ∀ (emps : List String),
      (∀ e ∈ emps, (lookupPref prefs e).isSome = true) →
      ∀ s : EmployeeScheduler, (pass3_go setOrder prefs emps s).isSome = true := by
  intro emps
  induction emps with
  | nil => intro _ s; rfl
  | cons e rest ih =>
    intro hall s
    simp only [pass3_go]
    cases hlp : lookupPref prefs e with
    | none =>
      have := hall e (List.mem_cons_self e rest)
      rw [hlp] at this
      exact absurd this (by simp)
    | some plan =>
      exact ih (fun x hx => hall x (List.mem_cons_of_mem e hx)) _

/-- The passes never touch the `employees` and `preferences` fields. -/
theorem passInv_fields (E : List String) (Pr : List (String × PrefPlan)) :
    PassInv (fun t => t.employees = E ∧ t.preferences = Pr) :=
  fun _ _ _ _ h _ _ => h

/-- Claim C9 (safety): on every state built only by `add_employee` calls,
every registered employee has a preference entry, and `assign_shifts`
succeeds — the `KeyError` branch (`UnknownEmployee`) of every preference
lookup performed by the three passes is unreachable. -/
theorem claim_C9_no_unknown_employee (setOrder : List Day → List Day)
    (s : EmployeeScheduler) (hr : Reachable s) :
    (∀ e ∈ s.employees, (lookupPref s.preferences e).isSome = true) ∧
    (assign_shifts setOrder s).isSome = true := by
  have hwf := reachable_registered_have_plans s hr
  refine ⟨hwf, ?_⟩
  have h1 : (pass1 s).isSome = true := pass1_go_isSome s.preferences s.employees hwf s
  obtain ⟨s1, hs1⟩ := Option.isSome_iff_exists.mp h1
  have hf1 : s1.employees = s.employees ∧ s1.preferences = s.preferences :=
    pass1_inv (passInv_fields s.employees s.preferences) s s1 ⟨rfl, rfl⟩ hs1
  have hf2 : (pass2 s1).employees = s.employees ∧ (pass2 s1).preferences = s.preferences :=
    pass2_inv (passInv_fields s.employees s.preferences) s1 hf1
  have h3 : (pass3_all setOrder (pass2 s1)).isSome = true := by
    rw [pass3_all, hf2.1, hf2.2]
    exact pass3_go_isSome setOrder s.preferences s.employees hwf (pass2 s1)
  simp only [assign_shifts, hs1]
  exact h3

theorem claim_C9_witness :
    (∀ e ∈ exSmall.employees, (lookupPref exSmall.preferences e).isSome = true) ∧
    (assign_shifts (fun l => l) exSmall).isSome = true :=
  claim_C9_no_unknown_employee (fun l => l) exSmall
    (Reachable.add initialScheduler "A" [(.monday, [.morning])] Reachable.init)

/-! ### Pass 3 places employees only on days of their plan (claim C10) -/

theorem pass3_days_mem (plan : PrefPlan) (e : String) :
    ∀ (ds sd : List Day) (s : EmployeeScheduler) (d : Day) (sh : Shift)
      (x : String), x ∈ (pass3_days plan e ds sd s).schedule d sh →
      x ∈ s.schedule d sh ∨ (x = e ∧ d ∈ ds) := by
  intro ds
  induction ds with
  | nil => intro sd s d sh x h; exact Or.inl h
  | cons day rest ih =>
    intro sd s d sh x h
    simp only [pass3_days] at h
    by_cases hcap : s.employee_days_worked e ≥ MAX_DAYS_PER_WEEK
    · rw [if_pos hcap] at h
      exact Or.inl h
    · rw [if_neg hcap] at h
      by_cases hin : day ∈ sd
      · rw [if_pos (decide_eq_true hin)] at h
        rcases ih sd s d sh x h with h1 | ⟨hx, hd⟩
        · exact Or.inl h1
        · exact Or.inr ⟨hx, List.mem_cons_of_mem day hd⟩
      · rw [if_neg (by simpa using hin)] at h
        cases ht : tryShifts s e day ((lookupDay plan day).getD SHIFTS) with
        | none =>
          simp only [ht] at h
          rcases ih sd s d sh x h with h1 | ⟨hx, hd⟩
          · exact Or.inl h1
          · exact Or.inr ⟨hx, List.mem_cons_of_mem day hd⟩
        | some shift =>
          simp only [ht] at h
          rcases ih (sd ++ [day]) (assignTo s day shift e) d sh x h with h1 | ⟨hx, hd⟩
          · rcases (mem_assignTo s day shift e d sh x).mp h1 with h2 | ⟨hxe, hdd, _⟩
            · exact Or.inl h2
            · exact Or.inr ⟨hxe, hdd ▸ List.mem_cons_self day rest⟩
          · exact Or.inr ⟨hx, List.mem_cons_of_mem day hd⟩

theorem pass3_go_mem (setOrder : List Day → List Day)
    (hsub : ∀ (l : List Day) (d : Day), d ∈ setOrder l → d ∈ l)
    (prefs : List (String × PrefPlan)) :
    ∀ (emps : List String) (s s' : EmployeeScheduler),
      pass3_go setOrder prefs emps s = some s' →
      ∀ (d : Day) (sh : Shift) (x : String), x ∈ s'.schedule d sh →
        x ∈ s.schedule d sh ∨
        ∃ plan, lookupPref prefs x = some plan ∧ d ∈ plan.map Prod.fst := by
  intro emps
  induction emps with
  | nil =>
    intro s s' h d sh x hx
    injection h with h
    exact Or.inl (h ▸ hx)
  | cons e rest ih =>
    intro s s' h d sh x hx
    simp only [pass3_go] at h
    cases hlp : lookupPref prefs e with
    | none =>
      simp only [hlp] at h
      exact Option.noConfusion h
    | some plan =>
      simp only [hlp] at h
      rcases ih _ s' h d sh x hx with h1 | h2
      · rcases pass3_days_mem plan e _ _ s d sh x h1 with h3 | ⟨hxe, hd⟩
        · exact Or.inl h3
        · subst hxe
          refine Or.inr ⟨plan, hlp, ?_⟩
          have hd2 := hsub _ d hd
          rw [missingDaysOf, List.mem_filter] at hd2
          simp only [Bool.and_eq_true, decide_eq_true_eq] at hd2
          exact hd2.2.1
      · exact Or.inr h2

/-- Claim C10 (functional, implicit): for any enumeration order that only
lists elements of the missing-days set (as Python set iteration does), every
day of the set fed to the Pass-3 day loop is a key of the employee's
preference plan, and every placement added by `_resolve_conflicts` puts an
employee on a day present in their own plan — so the
`.get(day, self.SHIFTS)` fallback to the full shift list is never the source
of a placement on an unplanned day. -/
theorem claim_C10_pass3_only_preferred_days (setOrder : List Day → List Day)
    (hsub : ∀ (l : List Day) (d : Day), d ∈ setOrder l → d ∈ l)
    (s s' : EmployeeScheduler) (h : pass3_all setOrder s = some s') :
    (∀ (plan : PrefPlan) (x : String) (d : Day),
      d ∈ missingDaysOf s plan x → d ∈ plan.map Prod.fst) ∧
    (∀ (d : Day) (sh : Shift) (x : String), x ∈ s'.schedule d sh →
      x ∈ s.schedule d sh ∨
      ∃ plan, lookupPref s.preferences x = some plan ∧ d ∈ plan.map Prod.fst) := by
  constructor
  · intro plan x d hd
    rw [missingDaysOf, List.mem_filter] at hd
    simp only [Bool.and_eq_true, decide_eq_true_eq] at hd
    exact hd.2.1
  · exact pass3_go_mem setOrder hsub s.preferences s.employees s s' h

theorem claim_C10_witness :
    (∀ (plan : PrefPlan) (x : String) (d : Day),
      d ∈ missingDaysOf exSmall plan x → d ∈ plan.map Prod.fst) ∧
    (∀ (d : Day) (sh : Shift) (x : String),
      x ∈ ((pass3_all (fun l => l) exSmall).getD exSmall).schedule d sh →
      x ∈ exSmall.schedule d sh ∨
      ∃ plan, lookupPref exSmall.preferences x = some plan ∧
        d ∈ plan.map Prod.fst) :=
  claim_C10_pass3_only_preferred_days (fun l => l) (fun _ _ hd => hd) exSmall
    ((pass3_all (fun l => l) exSmall).getD exSmall) rfl

/-! ### Determinism (claim C3)

`assign_shifts` is a pure function of the scheduler state and of the
iteration order used for the Pass-3 `missing_days` set: two runs from states
with identical registration lists, preference dictionaries, schedules and
counters, under the same set order, give identical results
(`claim_C3_determinism_fixed_order`).  The claim's further assertion — that
within every pass days are visited in fixed calendar order, so that the
output is the same however the set happens to be enumerated — is false:
`claim_C3_counterexample` exhibits one input on which the calendar
enumeration and the reversed enumeration of the same missing-days set
produce different schedules. -/

theorem claim_C3_determinism_fixed_order (setOrder : List Day → List Day)
    (s1 s2 : EmployeeScheduler)
    (he : s1.employees = s2.employees)
    (hp : s1.preferences = s2.preferences)
    (hs : ∀ (d : Day) (sh : Shift), s1.schedule d sh = s2.schedule d sh)
    (hw : ∀ x : String, s1.employee_days_worked x = s2.employee_days_worked x) :
    assign_shifts setOrder s1 = assign_shifts setOrder s2 := by
  obtain ⟨e1, p1, sc1, w1⟩ := s1
  obtain ⟨e2, p2, sc2, w2⟩ := s2
  have he' : e1 = e2 := he
  have hp' : p1 = p2 := hp
  have hsc : sc1 = sc2 := funext (fun d => funext (fun sh => hs d sh))
  have hw' : w1 = w2 := funext (fun x => hw x)
  subst he'
  subst hp'
  subst hsc
  subst hw'
  rfl

theorem claim_C3_witness :
    assign_shifts (fun l => l) exSmall = assign_shifts (fun l => l) exSmall :=
  claim_C3_determinism_fixed_order (fun l => l) exSmall exSmall
    rfl rfl (fun _ _ => rfl) (fun _ => rfl)

/-- Build a scheduler by a sequence of `add_employee` calls. -/
def mkScheduler (l : List (String × PrefPlan)) : EmployeeScheduler :=
  l.foldl (fun s p => add_employee s p.1 p.2) initialScheduler

def weekdayMornings : PrefPlan :=
  [(.monday, [.morning]), (.tuesday, [.morning]), (.wednesday, [.morning]),
   (.thursday, [.morning]), (.friday, [.morning])]

/-- Thirteen employees: `A`,`B` fill weekday Mornings in Pass 1; `C`–`F`
fill Friday Afternoon/Evening in Pass 1 and the remaining weekday slots in
Pass 2; `G`–`L` fill all six weekend slots in Pass 1; `Z` gets
Monday–Thursday in Pass 1, then hits the empty Friday entry (the Pass-1
`break` quirk) and ends Pass 2 on 4 worked days with `missing_days`
`{Friday, Saturday, Sunday}` and one day of remaining capacity — so which
weekend day Pass 3 gives `Z` depends on the order in which that set is
enumerated. -/
def exC3 : EmployeeScheduler := mkScheduler
  [("A", weekdayMornings), ("B", weekdayMornings),
   ("C", [(.friday, [.afternoon])]), ("D", [(.friday, [.afternoon])]),
   ("E", [(.friday, [.evening])]), ("F", [(.friday, [.evening])]),
   ("G", [(.saturday, [.morning]), (.sunday, [.morning])]),
   ("H", [(.saturday, [.morning]), (.sunday, [.morning])]),
   ("I", [(.saturday, [.afternoon]), (.sunday, [.afternoon])]),
   ("J", [(.saturday, [.afternoon]), (.sunday, [.afternoon])]),
   ("K", [(.saturday, [.evening]), (.sunday, [.evening])]),
   ("L", [(.saturday, [.evening]), (.sunday, [.evening])]),
   ("Z", [(.monday, [.morning]), (.tuesday, [.morning]), (.wednesday, [.morning]),
          (.thursday, [.morning]), (.friday, []), (.saturday, [.morning]),
          (.sunday, [.morning])])]

/-- Saturday-Morning slot of a run's result. -/
def satMorning (o : Option EmployeeScheduler) : Option (List String) :=
  o.map (fun st => st.schedule Day.saturday Shift.morning)

/-- Claim C3 is false as stated: on `exC3` — the same state, hence identical
registration list and preference dictionary — `assign_shifts` under the
calendar enumeration of the Pass-3 `missing_days` set places `Z` on
Saturday Morning, while under the reversed enumeration of the same set it
places `Z` on Sunday Morning instead.  The output therefore depends on the
iteration order of a Python `set` of strings, which is hash-seed dependent
and not the fixed calendar order the claim asserts for every pass. -/
theorem claim_C3_counterexample :
    ¬ (assign_shifts (fun l => l) exC3 = assign_shifts (fun l => l.reverse) exC3) := by
  intro h
  have h2 := congrArg satMorning h
  have e1 : satMorning (assign_shifts (fun l => l) exC3) = some ["G", "H", "Z"] := by
    decide
  have e2 : satMorning (assign_shifts (fun l => l.reverse) exC3) = some ["G", "H"] := by
    decide
  rw [e1, e2] at h2
  exact absurd h2 (by decide)
